import Mathlib

/-!
# vgc/dom/node.cpp : the node tree

A shallow embedding of `vgc::dom::Node` (libs/vgc/dom/node.cpp): the constructor
`Node::Node`, `Node::addChild_` and `Node::removeAllChildren_`.

Nodes live on the heap and are compared by address.  An address is a natural
number, the heap maps every address to the `Node` object stored there, and a
member function takes the heap and the address of `this`.  A null `Node*` is
`none`.  `assert` is embedded as a checked failure that stops the call before
any later statement runs; the failure carries the heap as it is at that point.
-/

namespace vgc.dom

/-- Address of a `Node` object (`Node*` that is not null, or the pointee of a
`NodeSharedPtr`). -/
abbrev NodePtr := Nat

/-- The two data members of `vgc::dom::Node`: `parent_` (a raw `Node*`, `none`
for `nullptr`) and `children_` (a `std::vector<NodeSharedPtr>`). -/
structure Node where
  parent_ : Option NodePtr
  children_ : List NodePtr

/-- The constructor `Node::Node() : parent_(nullptr) {}`; `children_` is default-constructed,
the empty vector. -/
def Node.new : Node := { parent_ := none, children_ := [] }

/-- The heap: the `Node` object stored at each address. -/
abbrev Heap := NodePtr → Node

/-- Store `v` at address `p`. -/
def Heap.set (h : Heap) (p : NodePtr) (v : Node) : Heap :=
  fun q => if q = p then v else h q

/-- Every address holds a freshly constructed node. -/
def Heap.fresh : Heap := fun _ => Node.new

/-- Construct a node in the storage at address `p`. -/
def Heap.construct (h : Heap) (p : NodePtr) : Heap := h.set p Node.new

/-- The heap whose first addresses hold the nodes of `l`, in order; every other
address holds a freshly constructed node. -/
def Heap.ofNodes (l : List Node) : Heap := fun p => l.getD p Node.new

/-- How a call can stop early: the `assert` of `addChild_` fired.  `heap` is the
heap at that moment. -/
inductive Failure where
  | assertionFailed (heap : Heap)

/-- Modelled from the spec: `core::contains` of vgc/core/algorithm.h, which is
not among the sources.  The spec calls it "a defensive, pointer-identity
membership check": whether `x` occurs in the vector `v`. -/
def core.contains (v : List NodePtr) (x : NodePtr) : Bool := v.elem x

/-- The member `void Node::addChild_(NodeSharedPtr node)` called on the node at address `self`.
```
assert(node->parent_ == nullptr);
if (!core::contains(children_, node)) {
    children_.push_back(node);
    node->parent_ = this;
}
``` -/
def addChild_ (h : Heap) (self node : NodePtr) : Except Failure Heap :=
  if (h node).parent_ ≠ none then
    .error (.assertionFailed h)
  else if !core.contains (h self).children_ node then
    let h1 := h.set self { h self with children_ := (h self).children_ ++ [node] }
    let h2 := h1.set node { h1 node with parent_ := some self }
    .ok h2
  else
    .ok h

/-- The member `void Node::removeAllChildren_()` called on the node at address `self`.
```
for (const NodeSharedPtr& node : children_) {
    node->parent_ = nullptr;
}
children_.clear();
``` -/
def removeAllChildren_ (h : Heap) (self : NodePtr) : Heap :=
  let h1 := (h self).children_.foldl
    (fun acc node => acc.set node { acc node with parent_ := none }) h
  h1.set self { h1 self with children_ := [] }

/-- The calls `addChild_(self, c)` for each `c` of `cs` in order, stopping at the first
failure. -/
def addChildren (h : Heap) (self : NodePtr) : List NodePtr → Except Failure Heap
  | [] => .ok h
  | c :: cs =>
    match addChild_ h self c with
    | .ok h1 => addChildren h1 self cs
    | .error e => .error e

/-- The heap once a call has returned or stopped: the resulting heap of a call
that succeeded, the heap at the assertion of a call that failed. -/
def heapAfter : Except Failure Heap → Heap
  | .ok h1 => h1
  | .error (.assertionFailed h1) => h1

/-- The simplified operation of the specification, with no membership test:
append `node` to the children of `self` and set the parent of `node` to `self`. -/
def appendChild (h : Heap) (self node : NodePtr) : Heap :=
  let h1 := h.set self { h self with children_ := (h self).children_ ++ [node] }
  h1.set node { h1 node with parent_ := some self }

/-! ## Specification predicates -/

/-- Both directions of the parent/children link agree: `n` is listed in the
children of `P` exactly when the parent of `n` is `P`. -/
def Consistent (h : Heap) : Prop :=
  ∀ P n : NodePtr, n ∈ (h P).children_ ↔ (h n).parent_ = some P

/-- The bidirectional link invariant: `Consistent`, and a listed child is listed
exactly once. -/
def Linked (h : Heap) : Prop :=
  ∀ P n : NodePtr, (n ∈ (h P).children_ ↔ (h n).parent_ = some P) ∧
    (n ∈ (h P).children_ → List.count n (h P).children_ = 1)

/-- One step upwards: the parent of `x` is `y`. -/
def ParentOf (h : Heap) (x y : NodePtr) : Prop := (h x).parent_ = some y

/-- The node `a` is an ancestor of `n`: following parent links one or more times from
`n` reaches `a`. -/
def IsAncestor (h : Heap) (a n : NodePtr) : Prop := Relation.TransGen (ParentOf h) n a

/-- No node is its own ancestor. -/
def Acyclic (h : Heap) : Prop := ∀ n : NodePtr, ¬ IsAncestor h n n

/-- States reachable from fresh nodes by successful `addChild_` calls and
`removeAllChildren_` calls. -/
inductive Reachable : Heap → Prop
  | fresh : Reachable Heap.fresh
  | addChild {h h1 : Heap} (p c : NodePtr) :
      Reachable h → addChild_ h p c = .ok h1 → Reachable h1
  | removeAllChildren {h : Heap} (p : NodePtr) :
      Reachable h → Reachable (removeAllChildren_ h p)

/-- As `Reachable`, but every `addChild_(p, c)` is called with `c` neither `p`
itself nor an ancestor of `p`. -/
inductive ReachableGuarded : Heap → Prop
  | fresh : ReachableGuarded Heap.fresh
  | addChild {h h1 : Heap} (p c : NodePtr) :
      ReachableGuarded h → addChild_ h p c = .ok h1 → c ≠ p → ¬ IsAncestor h c p →
      ReachableGuarded h1
  | removeAllChildren {h : Heap} (p : NodePtr) :
      ReachableGuarded h → ReachableGuarded (removeAllChildren_ h p)

/-! ## What the two operations do to each field -/

theorem Heap.set_same (h : Heap) (p : NodePtr) (v : Node) : h.set p v p = v := by
  simp [Heap.set]

theorem Heap.set_other (h : Heap) (p q : NodePtr) (v : Node) (hq : q ≠ p) :
    h.set p v q = h q := by
  simp [Heap.set, hq]

theorem contains_iff (v : List NodePtr) (x : NodePtr) : core.contains v x = true ↔ x ∈ v := by
  simp [core.contains]

/-- The failing path of `addChild_`. -/
theorem addChild_attached (h : Heap) (p c : NodePtr) (hc : (h c).parent_ ≠ none) :
    addChild_ h p c = .error (.assertionFailed h) := by
  simp [addChild_, hc]

/-- The no-op path of `addChild_`. -/
theorem addChild_listed (h : Heap) (p c : NodePtr) (hc : (h c).parent_ = none)
    (hm : c ∈ (h p).children_) : addChild_ h p c = .ok h := by
  simp [addChild_, hc, contains_iff, hm]

/-- The appending path of `addChild_`, field by field. -/
theorem addChild_append (h : Heap) (p c : NodePtr) (hc : (h c).parent_ = none)
    (hm : c ∉ (h p).children_) :
    ∃ h1, addChild_ h p c = .ok h1 ∧
      (∀ n, (h1 n).parent_ = if n = c then some p else (h n).parent_) ∧
      (∀ n, (h1 n).children_ = if n = p then (h p).children_ ++ [c] else (h n).children_) := by
  refine ⟨(h.set p { h p with children_ := (h p).children_ ++ [c] }).set c
    { (h.set p { h p with children_ := (h p).children_ ++ [c] }) c with parent_ := some p },
    ?_, ?_, ?_⟩
  · simp [addChild_, hc, contains_iff, hm]
  · intro n
    simp only [Heap.set]
    split_ifs <;> simp_all
  · intro n
    simp only [Heap.set]
    split_ifs <;> simp_all

/-- The loop of `removeAllChildren_` over a list `l` of nodes: exactly the nodes
of `l` lose their parent, and no `children_` changes. -/
theorem clearParents_fields (l : List NodePtr) (h : Heap) (n : NodePtr) :
    ((l.foldl (fun acc node => acc.set node { acc node with parent_ := none }) h) n).parent_
        = (if n ∈ l then none else (h n).parent_) ∧
    ((l.foldl (fun acc node => acc.set node { acc node with parent_ := none }) h) n).children_
        = (h n).children_ := by
  induction l generalizing h with
  | nil => simp
  | cons x xs ih =>
    simp only [List.foldl_cons, List.mem_cons]
    obtain ⟨ih1, ih2⟩ := ih (h.set x { h x with parent_ := none })
    rw [ih1, ih2]
    by_cases hx : n = x
    · subst hx; simp [Heap.set]
    · simp [Heap.set, hx]

/-- The parent of every node after `removeAllChildren_`. -/
theorem removeAllChildren_parent (h : Heap) (p n : NodePtr) :
    (removeAllChildren_ h p n).parent_
      = if n ∈ (h p).children_ then none else (h n).parent_ := by
  simp only [removeAllChildren_, Heap.set]
  split_ifs with h1 h2 h2
  · subst h1; simpa [h2] using (clearParents_fields (h n).children_ h n).1
  · subst h1; simpa [h2] using (clearParents_fields (h n).children_ h n).1
  · simpa [h2] using (clearParents_fields (h p).children_ h n).1
  · simpa [h2] using (clearParents_fields (h p).children_ h n).1

/-- The children of every node after `removeAllChildren_`. -/
theorem removeAllChildren_children (h : Heap) (p n : NodePtr) :
    (removeAllChildren_ h p n).children_ = if n = p then [] else (h n).children_ := by
  simp only [removeAllChildren_, Heap.set]
  split_ifs with h1
  · rfl
  · exact (clearParents_fields (h p).children_ h n).2

/-- In a consistent heap a detached node is listed nowhere. -/
theorem Consistent.not_listed {h : Heap} (hc : Consistent h) {c : NodePtr}
    (hd : (h c).parent_ = none) (p : NodePtr) : c ∉ (h p).children_ := by
  intro hm
  have := (hc p c).1 hm
  rw [hd] at this
  cases this

/-- Fresh nodes are consistent. -/
theorem fresh_consistent : Consistent Heap.fresh := by
  intro P n
  simp [Heap.fresh, Node.new]

/-- A successful `addChild_` was called on a detached node, and either took the
no-op path or the appending path. -/
theorem addChild_ok_cases {h h1 : Heap} {p c : NodePtr} (hok : addChild_ h p c = .ok h1) :
    (h c).parent_ = none ∧
    ((c ∈ (h p).children_ ∧ h1 = h) ∨
     (c ∉ (h p).children_ ∧
      (∀ n, (h1 n).parent_ = if n = c then some p else (h n).parent_) ∧
      (∀ n, (h1 n).children_ = if n = p then (h p).children_ ++ [c] else (h n).children_))) := by
  by_cases hd : (h c).parent_ = none
  · refine ⟨hd, ?_⟩
    by_cases hm : c ∈ (h p).children_
    · left
      rw [addChild_listed h p c hd hm] at hok
      exact ⟨hm, (Except.ok.inj hok).symm⟩
    · right
      obtain ⟨h2, hok2, hpar, hch⟩ := addChild_append h p c hd hm
      rw [hok2] at hok
      cases Except.ok.inj hok
      exact ⟨hm, hpar, hch⟩
  · rw [addChild_attached h p c hd] at hok
    cases hok

/-- Fresh nodes have no parent link at all. -/
theorem fresh_no_ancestor (a n : NodePtr) : ¬ IsAncestor Heap.fresh a n := by
  intro hp
  have hstep : ∀ x y, ¬ ParentOf Heap.fresh x y := by
    intro x y hxy
    simp [ParentOf, Heap.fresh, Node.new] at hxy
  cases hp with
  | single hxy => exact hstep _ _ hxy
  | tail _ hxy => exact hstep _ _ hxy

/-- A path in the heap after linking `c` under `p` either exists already before
or passes through the new link. -/
theorem path_after_link {h h1 : Heap} {p c : NodePtr}
    (hpar : ∀ n, (h1 n).parent_ = if n = c then some p else (h n).parent_)
    {a b : NodePtr} (hab : Relation.TransGen (ParentOf h1) a b) :
    Relation.TransGen (ParentOf h) a b ∨
    (Relation.ReflTransGen (ParentOf h) a c ∧ Relation.ReflTransGen (ParentOf h) p b) := by
  have hstep : ∀ x y, ParentOf h1 x y → ParentOf h x y ∨ (x = c ∧ y = p) := by
    intro x y hxy
    unfold ParentOf at hxy
    rw [hpar] at hxy
    by_cases hx : x = c
    · right
      rw [if_pos hx] at hxy
      exact ⟨hx, (Option.some.inj hxy).symm⟩
    · left
      rw [if_neg hx] at hxy
      exact hxy
  induction hab with
  | single hxy =>
    rcases hstep _ _ hxy with hold | ⟨hx, hy⟩
    · exact Or.inl (Relation.TransGen.single hold)
    · subst hx; subst hy
      exact Or.inr ⟨Relation.ReflTransGen.refl, Relation.ReflTransGen.refl⟩
  | tail _ hxy ih =>
    rcases hstep _ _ hxy with hold | ⟨hx, hy⟩
    · rcases ih with ih | ⟨ih1, ih2⟩
      · exact Or.inl (Relation.TransGen.tail ih hold)
      · exact Or.inr ⟨ih1, Relation.ReflTransGen.tail ih2 hold⟩
    · subst hx; subst hy
      rcases ih with ih | ⟨ih1, _⟩
      · exact Or.inr ⟨Relation.TransGen.to_reflTransGen ih, Relation.ReflTransGen.refl⟩
      · exact Or.inr ⟨ih1, Relation.ReflTransGen.refl⟩

/-- Linking a detached `c` under `p` keeps the heap acyclic when `c` is neither
`p` nor an ancestor of `p`. -/
theorem addChild_acyclic {h h1 : Heap} {p c : NodePtr} (hacy : Acyclic h)
    (hok : addChild_ h p c = .ok h1) (hne : c ≠ p) (hna : ¬ IsAncestor h c p) :
    Acyclic h1 := by
  obtain ⟨_, hcase⟩ := addChild_ok_cases hok
  rcases hcase with ⟨_, heq⟩ | ⟨_, hpar, _⟩
  · rw [heq]; exact hacy
  · intro n hn
    rcases path_after_link hpar hn with hold | ⟨h1c, hp1⟩
    · exact hacy n hold
    · have hpc : Relation.ReflTransGen (ParentOf h) p c := hp1.trans h1c
      rcases Relation.reflTransGen_iff_eq_or_transGen.1 hpc with heq | htg
      · exact hne heq
      · exact hna htg

/-- The function `removeAllChildren_` only removes parent links. -/
theorem removeAllChildren_acyclic {h : Heap} (hacy : Acyclic h) (p : NodePtr) :
    Acyclic (removeAllChildren_ h p) := by
  intro n hn
  refine hacy n (Relation.TransGen.mono ?_ hn)
  intro x y hxy
  unfold ParentOf at hxy ⊢
  rw [removeAllChildren_parent] at hxy
  split_ifs at hxy
  exact hxy

/-- A successful `addChild_` keeps the heap consistent. -/
theorem addChild_consistent {h h1 : Heap} {p c : NodePtr} (hc : Consistent h)
    (hok : addChild_ h p c = .ok h1) : Consistent h1 := by
  obtain ⟨hd, hcase⟩ := addChild_ok_cases hok
  rcases hcase with ⟨_, heq⟩ | ⟨_, hpar, hch⟩
  · rw [heq]; exact hc
  · intro P n
    rw [hpar, hch]
    by_cases hn : n = c
    · subst hn
      by_cases hP : P = p
      · subst hP; simp
      · have hnl : n ∉ (h P).children_ := hc.not_listed hd P
        simp [hP, hnl, Ne.symm hP]
    · by_cases hP : P = p
      · subst hP; simp [hn, hc P n]
      · simp [hn, hP, hc P n]

/-- The function `removeAllChildren_` keeps the heap consistent. -/
theorem removeAllChildren_consistent {h : Heap} (hc : Consistent h) (p : NodePtr) :
    Consistent (removeAllChildren_ h p) := by
  intro P n
  rw [removeAllChildren_parent, removeAllChildren_children]
  by_cases hn : n ∈ (h p).children_
  · have hnp : (h n).parent_ = some p := (hc p n).1 hn
    by_cases hP : P = p
    · simp [hP, hn]
    · have : n ∉ (h P).children_ := by
        intro hm
        have := (hc P n).1 hm
        rw [hnp] at this
        exact hP (Option.some.inj this).symm
      simp [hP, hn, this]
  · by_cases hP : P = p
    · subst hP
      have : (h n).parent_ ≠ some P := fun hh => hn ((hc P n).2 hh)
      simp [hn, this]
    · simp [hP, hn, hc P n]

/-- The invariant `Linked` is `Consistent` together with single listing. -/
theorem linked_iff (h : Heap) :
    Linked h ↔ Consistent h ∧
      ∀ P n : NodePtr, n ∈ (h P).children_ → List.count n (h P).children_ = 1 := by
  constructor
  · intro hl
    exact ⟨fun P n => (hl P n).1, fun P n => (hl P n).2⟩
  · rintro ⟨hc, hcount⟩ P n
    exact ⟨hc P n, hcount P n⟩

/-- Fresh nodes satisfy the link invariant. -/
theorem fresh_linked : Linked Heap.fresh := by
  intro P n
  simp [Heap.fresh, Node.new]

/-- A successful `addChild_` keeps the link invariant. -/
theorem addChild_linked {h h1 : Heap} {p c : NodePtr} (hl : Linked h)
    (hok : addChild_ h p c = .ok h1) : Linked h1 := by
  obtain ⟨hc, hcount⟩ := (linked_iff h).1 hl
  refine (linked_iff h1).2 ⟨addChild_consistent hc hok, ?_⟩
  obtain ⟨_, hcase⟩ := addChild_ok_cases hok
  rcases hcase with ⟨_, heq⟩ | ⟨hm, _, hch⟩
  · rw [heq]; exact hcount
  · intro P n
    rw [hch]
    by_cases hP : P = p
    · subst hP
      simp only [if_true, List.mem_append, List.mem_singleton, List.count_append]
      by_cases hn : n = c
      · subst hn
        intro _
        simp [List.count_eq_zero_of_not_mem hm]
      · intro hmem
        rcases hmem with hmem | hmem
        · simp [hcount P n hmem, hn]
        · exact absurd hmem hn
    · simpa [hP] using hcount P n

/-- The function `removeAllChildren_` keeps the link invariant. -/
theorem removeAllChildren_linked {h : Heap} (hl : Linked h) (p : NodePtr) :
    Linked (removeAllChildren_ h p) := by
  obtain ⟨hc, hcount⟩ := (linked_iff h).1 hl
  refine (linked_iff _).2 ⟨removeAllChildren_consistent hc p, ?_⟩
  intro P n
  rw [removeAllChildren_children]
  by_cases hP : P = p
  · simp [hP]
  · simpa [hP] using hcount P n

/-- Two nodes with the same parent and the same children are the same node
value. -/
theorem Node.eq_of_fields {a b : Node} (hp : a.parent_ = b.parent_)
    (hc : a.children_ = b.children_) : a = b := by
  cases a
  cases b
  simp only [Node.mk.injEq]
  exact ⟨hp, hc⟩

/-- The appending path of `addChild_` is `appendChild`. -/
theorem addChild_eq_appendChild (h : Heap) (p c : NodePtr) (hc : (h c).parent_ = none)
    (hm : c ∉ (h p).children_) : addChild_ h p c = .ok (appendChild h p c) := by
  simp [addChild_, appendChild, hc, contains_iff, hm]

/-- On a childless node `removeAllChildren_` writes nothing new. -/
theorem removeAllChildren_childless (h : Heap) (p : NodePtr) (he : (h p).children_ = []) :
    removeAllChildren_ h p = h := by
  funext n
  apply Node.eq_of_fields
  · rw [removeAllChildren_parent, he]; simp
  · rw [removeAllChildren_children]
    by_cases hn : n = p
    · subst hn; simp [he]
    · simp [hn]

/-! ## The claims -/

/-- C1: in a consistent heap, `addChild_(p, c)` with `c` detached succeeds;
afterwards the parent of `c` is `p`, the children of `p` are the previous
children in their previous order followed by `c`, so `c` is the last element and
occurs exactly once. -/
theorem addChild_detached_appends (h : Heap) (p c : NodePtr) (hc : Consistent h)
    (hd : (h c).parent_ = none) :
    ∃ h1, addChild_ h p c = .ok h1 ∧
      (h1 c).parent_ = some p ∧
      (h1 p).children_ = (h p).children_ ++ [c] ∧
      (h1 p).children_.getLast? = some c ∧
      (h1 p).children_.dropLast = (h p).children_ ∧
      List.count c (h1 p).children_ = 1 := by
  have hm : c ∉ (h p).children_ := hc.not_listed hd p
  obtain ⟨h1, hok, hpar, hch⟩ := addChild_append h p c hd hm
  refine ⟨h1, hok, ?_, ?_, ?_, ?_, ?_⟩
  · simp [hpar]
  · simp [hch]
  · simp [hch]
  · simp [hch]
  · simp [hch, List.count_eq_zero_of_not_mem hm]

/-- Witness for C1: two fresh nodes 0 and 1. -/
theorem addChild_detached_appends_witness :
    ∃ h1, addChild_ Heap.fresh 0 1 = .ok h1 ∧
      (h1 1).parent_ = some 0 ∧
      (h1 0).children_ = (Heap.fresh 0).children_ ++ [1] ∧
      (h1 0).children_.getLast? = some 1 ∧
      (h1 0).children_.dropLast = (Heap.fresh 0).children_ ∧
      List.count 1 (h1 0).children_ = 1 :=
  addChild_detached_appends Heap.fresh 0 1 fresh_consistent rfl

/-- C2: `removeAllChildren_(p)` is total (it has no failing path); afterwards the
children of `p` are the empty sequence and every node that was among them has
no parent. -/
theorem removeAllChildren_detaches (h : Heap) (p : NodePtr) :
    (removeAllChildren_ h p p).children_ = [] ∧
    ∀ n, n ∈ (h p).children_ → (removeAllChildren_ h p n).parent_ = none := by
  refine ⟨by simp [removeAllChildren_children], ?_⟩
  intro n hn
  simp [removeAllChildren_parent, hn]

/-- C3: when `c` has parent `p1` and `p1 ≠ p2`, `addChild_(p2, c)` stops at the
assertion; the heap at that point is the heap before the call, so the children
of `p1`, the children of `p2` and the parent of `c` are as before. -/
theorem addChild_attached_fails (h : Heap) (p1 p2 c : NodePtr)
    (hc : (h c).parent_ = some p1) (hne : p1 ≠ p2) :
    ∃ h1, addChild_ h p2 c = .error (.assertionFailed h1) ∧ h1 = h ∧
      (h1 p1).children_ = (h p1).children_ ∧
      (h1 p2).children_ = (h p2).children_ ∧
      (h1 c).parent_ = some p1 := by
  have _ := hne
  exact ⟨h, addChild_attached h p2 c (by simp [hc]), rfl, rfl, rfl, hc⟩

/-- Witness for C3: node 2 is the child of node 0 and is added to node 1. -/
theorem addChild_attached_fails_witness :
    ∃ h1, addChild_ (Heap.ofNodes [⟨none, [2]⟩, ⟨none, []⟩, ⟨some 0, []⟩]) 1 2
        = .error (.assertionFailed h1) ∧
      h1 = Heap.ofNodes [⟨none, [2]⟩, ⟨none, []⟩, ⟨some 0, []⟩] ∧
      (h1 0).children_ = [2] ∧ (h1 1).children_ = [] ∧ (h1 2).parent_ = some 0 :=
  addChild_attached_fails (Heap.ofNodes [⟨none, [2]⟩, ⟨none, []⟩, ⟨some 0, []⟩]) 0 1 2 rfl
    (by decide)

/-- C4, as stated, fails: on fresh nodes 0 and 1 the first `addChild_(0, 1)`
succeeds and the second one does not. -/
theorem addChild_twice_second_fails :
    Consistent Heap.fresh ∧ (Heap.fresh 1).parent_ = none ∧
    ∃ h1, addChild_ Heap.fresh 0 1 = .ok h1 ∧ ∀ h2, addChild_ h1 0 1 ≠ .ok h2 := by
  refine ⟨fresh_consistent, rfl, _, rfl, ?_⟩
  intro h2 hh
  rw [addChild_attached _ 0 1 (by simp [Heap.set, Heap.fresh, Node.new])] at hh
  cases hh

/-- C4, amended: in a consistent heap with `c` detached, `addChild_(p, c)`
succeeds and appends `c` once; the same call made again stops at the assertion
(the parent of `c` is now `p`) with the heap as the first call left it. -/
theorem addChild_twice (h : Heap) (p c : NodePtr) (hc : Consistent h)
    (hd : (h c).parent_ = none) :
    ∃ h1, addChild_ h p c = .ok h1 ∧
      addChild_ h1 p c = .error (.assertionFailed h1) ∧
      (h1 p).children_ = (h p).children_ ++ [c] ∧
      List.count c (h1 p).children_ = 1 := by
  have hm : c ∉ (h p).children_ := hc.not_listed hd p
  obtain ⟨h1, hok, hpar, hch⟩ := addChild_append h p c hd hm
  refine ⟨h1, hok, addChild_attached h1 p c (by simp [hpar]), by simp [hch], ?_⟩
  simp [hch, List.count_eq_zero_of_not_mem hm]

/-- Witness for C4 amended: fresh nodes 0 and 1. -/
theorem addChild_twice_witness :
    ∃ h1, addChild_ Heap.fresh 0 1 = .ok h1 ∧
      addChild_ h1 0 1 = .error (.assertionFailed h1) ∧
      (h1 0).children_ = (Heap.fresh 0).children_ ++ [1] ∧
      List.count 1 (h1 0).children_ = 1 :=
  addChild_twice Heap.fresh 0 1 fresh_consistent rfl

/-- C5, as stated, fails: `addChild_(0, 0)` on a fresh node 0 succeeds and makes
node 0 its own parent; and after `addChild_(0, 1)` the root 0 is accepted as a
child of its descendant 1, which makes 0 its own ancestor. -/
theorem addChild_makes_cycle :
    (∃ h1, addChild_ Heap.fresh 0 0 = .ok h1 ∧ Reachable h1 ∧
      (h1 0).parent_ = some 0 ∧ ¬ Acyclic h1) ∧
    (∃ h1 h2, addChild_ Heap.fresh 0 1 = .ok h1 ∧ addChild_ h1 1 0 = .ok h2 ∧
      Reachable h2 ∧ (h2 1).parent_ = some 0 ∧ (h2 0).parent_ = some 1 ∧
      IsAncestor h2 0 0) := by
  constructor
  · refine ⟨_, rfl, Reachable.addChild 0 0 Reachable.fresh rfl, rfl, ?_⟩
    intro hacy
    exact hacy 0 (Relation.TransGen.single rfl)
  · refine ⟨_, _, rfl, rfl, ?_, rfl, rfl, ?_⟩
    · exact Reachable.addChild 1 0 (Reachable.addChild 0 1 Reachable.fresh rfl) rfl
    · exact Relation.TransGen.tail (Relation.TransGen.single rfl) rfl

/-- C5, amended: in every state reached from fresh nodes by `removeAllChildren_`
calls and successful `addChild_(p, c)` calls whose `c` is neither `p` nor an
ancestor of `p`, no node is its own ancestor. -/
theorem guarded_acyclic (h : Heap) (hr : ReachableGuarded h) : Acyclic h := by
  induction hr with
  | fresh => exact fun n => fresh_no_ancestor n n
  | addChild p c _ hok hne hna ih => exact addChild_acyclic ih hok hne hna
  | removeAllChildren p _ ih => exact removeAllChildren_acyclic ih p

/-- Witness for C5 amended: the heap after `addChild_(0, 1)` on fresh nodes. -/
theorem guarded_acyclic_witness :
    ∃ h1, addChild_ Heap.fresh 0 1 = .ok h1 ∧ ReachableGuarded h1 ∧ Acyclic h1 :=
  ⟨_, rfl,
    ReachableGuarded.addChild 0 1 ReachableGuarded.fresh rfl (by decide)
      (fresh_no_ancestor 1 0),
    guarded_acyclic _
      (ReachableGuarded.addChild 0 1 ReachableGuarded.fresh rfl (by decide)
        (fresh_no_ancestor 1 0))⟩

/-- C6: the bidirectional link invariant (`n` is listed under `P` exactly when
the parent of `n` is `P`, and then it is listed once) holds for fresh nodes, is
kept by every successful `addChild_` and by every `removeAllChildren_`, and so
holds in every reachable state. -/
theorem linked_invariant :
    Linked Heap.fresh ∧
    (∀ (h h1 : Heap) (p c : NodePtr), Linked h → addChild_ h p c = .ok h1 → Linked h1) ∧
    (∀ (h : Heap) (p : NodePtr), Linked h → Linked (removeAllChildren_ h p)) ∧
    (∀ h : Heap, Reachable h → Linked h) := by
  refine ⟨fresh_linked, fun h h1 p c hl hok => addChild_linked hl hok,
    fun h p hl => removeAllChildren_linked hl p, ?_⟩
  intro h hr
  induction hr with
  | fresh => exact fresh_linked
  | addChild p c _ hok ih => exact addChild_linked ih hok
  | removeAllChildren p _ ih => exact removeAllChildren_linked ih p

/-- Witness for C6: fresh nodes, then `addChild_(0, 1)`, then
`removeAllChildren_(0)`. -/
theorem linked_invariant_witness :
    ∃ h1, addChild_ Heap.fresh 0 1 = .ok h1 ∧ Linked h1 ∧
      Linked (removeAllChildren_ h1 0) ∧ Reachable (removeAllChildren_ h1 0) :=
  ⟨_, rfl, linked_invariant.2.1 Heap.fresh _ 0 1 fresh_linked rfl,
    linked_invariant.2.2.1 _ 0 (linked_invariant.2.1 Heap.fresh _ 0 1 fresh_linked rfl),
    Reachable.removeAllChildren 0 (Reachable.addChild 0 1 Reachable.fresh rfl)⟩

/-- C7: in a consistent heap where `p` has children `xs`, adding the pairwise
distinct detached nodes `cs` to `p` one after the other succeeds every time and
leaves `p` with children `xs ++ cs`; on a childless `p` the children are `cs`. -/
theorem addChildren_appends (h : Heap) (p : NodePtr) (cs : List NodePtr)
    (hc : Consistent h) (hnd : cs.Nodup) (hdet : ∀ c ∈ cs, (h c).parent_ = none) :
    ∃ h1, addChildren h p cs = .ok h1 ∧
      (h1 p).children_ = (h p).children_ ++ cs ∧
      ((h p).children_ = [] → (h1 p).children_ = cs) := by
  induction cs generalizing h with
  | nil => exact ⟨h, rfl, by simp, fun he => he⟩
  | cons c cs ih =>
    have hd : (h c).parent_ = none := hdet c (List.mem_cons_self c cs)
    obtain ⟨h1, hok, hpar, hch⟩ := addChild_append h p c hd (hc.not_listed hd p)
    obtain ⟨hcn, hnd1⟩ := List.nodup_cons.1 hnd
    have hdet1 : ∀ d ∈ cs, (h1 d).parent_ = none := by
      intro d hdm
      have hdc : d ≠ c := fun he => hcn (he ▸ hdm)
      rw [hpar, if_neg hdc]
      exact hdet d (List.mem_cons_of_mem c hdm)
    obtain ⟨h2, hok2, hch2, _⟩ := ih h1 (addChild_consistent hc hok) hnd1 hdet1
    have hall : (h2 p).children_ = (h p).children_ ++ c :: cs := by
      rw [hch2, hch]; simp
    refine ⟨h2, ?_, hall, ?_⟩
    · simp only [addChildren, hok]
      exact hok2
    · intro he
      rw [hall, he]; rfl

/-- Witness for C7: fresh nodes 1, 2, 3 added to the fresh node 0. -/
theorem addChildren_appends_witness :
    ∃ h1, addChildren Heap.fresh 0 [1, 2, 3] = .ok h1 ∧
      (h1 0).children_ = (Heap.fresh 0).children_ ++ [1, 2, 3] ∧
      ((Heap.fresh 0).children_ = [] → (h1 0).children_ = [1, 2, 3]) :=
  addChildren_appends Heap.fresh 0 [1, 2, 3] fresh_consistent (by decide)
    (fun _ _ => rfl)

/-- C8: `removeAllChildren_(p)` is shallow.  Every node other than `p` keeps its
children and every node that was not a child of `p` keeps its parent.  So a
grandchild `g` (a child of a child `c` of `p`, with `c` other than `p` and `g`
not itself a child of `p`) is still listed under `c` and still points to `c`,
while `c` is now detached. -/
theorem removeAllChildren_shallow (h : Heap) (p : NodePtr) :
    (∀ n, n ≠ p → (removeAllChildren_ h p n).children_ = (h n).children_) ∧
    (∀ n, n ∉ (h p).children_ → (removeAllChildren_ h p n).parent_ = (h n).parent_) ∧
    (∀ c g, c ∈ (h p).children_ → c ≠ p → g ∉ (h p).children_ →
      g ∈ (h c).children_ → (h g).parent_ = some c →
      g ∈ (removeAllChildren_ h p c).children_ ∧
      (removeAllChildren_ h p g).parent_ = some c ∧
      (removeAllChildren_ h p c).parent_ = none) := by
  refine ⟨?_, ?_, ?_⟩
  · intro n hn
    simp [removeAllChildren_children, hn]
  · intro n hn
    simp [removeAllChildren_parent, hn]
  · intro c g hc hcp hg hgc hgp
    refine ⟨?_, ?_, ?_⟩
    · simpa [removeAllChildren_children, hcp] using hgc
    · simpa [removeAllChildren_parent, hg] using hgp
    · simp [removeAllChildren_parent, hc]

/-- Witness for C8: node 0 has the child 1, which has the child 2. -/
theorem removeAllChildren_shallow_witness :
    2 ∈ (removeAllChildren_
          (Heap.ofNodes [⟨none, [1]⟩, ⟨some 0, [2]⟩, ⟨some 1, []⟩]) 0 1).children_ ∧
    (removeAllChildren_
          (Heap.ofNodes [⟨none, [1]⟩, ⟨some 0, [2]⟩, ⟨some 1, []⟩]) 0 2).parent_ = some 1 ∧
    (removeAllChildren_
          (Heap.ofNodes [⟨none, [1]⟩, ⟨some 0, [2]⟩, ⟨some 1, []⟩]) 0 1).parent_ = none :=
  (removeAllChildren_shallow (Heap.ofNodes [⟨none, [1]⟩, ⟨some 0, [2]⟩, ⟨some 1, []⟩]) 0).2.2
    1 2 (by decide) (by decide) (by decide) (by decide) rfl

/-- C9: a successful `addChild_(p, c)` leaves the children of every node other
than `p` and the parent of every node other than `c` as they were. -/
theorem addChild_frame (h h1 : Heap) (p c : NodePtr) (hok : addChild_ h p c = .ok h1) :
    (∀ n, n ≠ p → (h1 n).children_ = (h n).children_) ∧
    (∀ n, n ≠ c → (h1 n).parent_ = (h n).parent_) := by
  obtain ⟨_, hcase⟩ := addChild_ok_cases hok
  rcases hcase with ⟨_, heq⟩ | ⟨_, hpar, hch⟩
  · rw [heq]; exact ⟨fun _ _ => rfl, fun _ _ => rfl⟩
  · constructor
    · intro n hn
      rw [hch, if_neg hn]
    · intro n hn
      rw [hpar, if_neg hn]

/-- Witness for C9: `addChild_(0, 1)` on fresh nodes. -/
theorem addChild_frame_witness :
    ∃ h1, addChild_ Heap.fresh 0 1 = .ok h1 ∧
      (∀ n, n ≠ 0 → (h1 n).children_ = (Heap.fresh n).children_) ∧
      (∀ n, n ≠ 1 → (h1 n).parent_ = (Heap.fresh n).parent_) :=
  ⟨_, rfl, addChild_frame Heap.fresh _ 0 1 rfl⟩

/-- C10: in a consistent heap, once `removeAllChildren_(p)` has run, every node
`c` that was a child of `p` can be added to any node `q`: the call succeeds, the
parent of `c` is `q` and `c` is last among the children of `q`.  The scenario on
fresh nodes A = 0, B = 1, C = 2: `addChild_(A, B)` and `addChild_(A, C)` succeed,
`addChild_(B, C)` fails; after `removeAllChildren_(A)` neither B nor C has a
parent and A has no children; `addChild_(B, C)` then succeeds. -/
theorem detach_then_reattach :
    (∀ (h : Heap) (p c q : NodePtr), Consistent h → c ∈ (h p).children_ →
      ∃ h2, addChild_ (removeAllChildren_ h p) q c = .ok h2 ∧
        (h2 c).parent_ = some q ∧
        (h2 q).children_ = (removeAllChildren_ h p q).children_ ++ [c] ∧
        (h2 q).children_.getLast? = some c) ∧
    (∃ h1 h2 h4, addChild_ Heap.fresh 0 1 = .ok h1 ∧ addChild_ h1 0 2 = .ok h2 ∧
      addChild_ h2 1 2 = .error (.assertionFailed h2) ∧
      (removeAllChildren_ h2 0 1).parent_ = none ∧
      (removeAllChildren_ h2 0 2).parent_ = none ∧
      (removeAllChildren_ h2 0 0).children_ = [] ∧
      addChild_ (removeAllChildren_ h2 0) 1 2 = .ok h4 ∧
      (h4 2).parent_ = some 1 ∧ (h4 1).children_ = [2]) := by
  constructor
  · intro h p c q hc hm
    have hd : (removeAllChildren_ h p c).parent_ = none := by
      simp [removeAllChildren_parent, hm]
    have hc1 : Consistent (removeAllChildren_ h p) := removeAllChildren_consistent hc p
    obtain ⟨h2, hok, hpar, hch⟩ :=
      addChild_append (removeAllChildren_ h p) q c hd (hc1.not_listed hd q)
    exact ⟨h2, hok, by simp [hpar], by simp [hch], by simp [hch]⟩
  · exact ⟨_, _, _, rfl, rfl, rfl, rfl, rfl, rfl, rfl, rfl, rfl⟩

/-- Witness for C10: node 1 is added to node 0, detached by
`removeAllChildren_(0)` and added to node 2. -/
theorem detach_then_reattach_witness :
    ∃ h1, addChild_ Heap.fresh 0 1 = .ok h1 ∧
    ∃ h2, addChild_ (removeAllChildren_ h1 0) 2 1 = .ok h2 ∧
      (h2 1).parent_ = some 2 ∧
      (h2 2).children_ = (removeAllChildren_ h1 0 2).children_ ++ [1] ∧
      (h2 2).children_.getLast? = some 1 :=
  ⟨_, rfl, detach_then_reattach.1 _ 0 1 2 (addChild_consistent fresh_consistent rfl)
    (by decide)⟩

/-- C11: no single operation moves a node from one parent to another.  For
`addChild_(p, c)`, whether it succeeds or stops at the assertion, and for
`removeAllChildren_(p)`: a node that has a parent before and a parent after the
operation has the same parent. -/
theorem no_direct_reparenting :
    (∀ (h : Heap) (p c n a b : NodePtr), (h n).parent_ = some a →
      (heapAfter (addChild_ h p c) n).parent_ = some b → a = b) ∧
    (∀ (h : Heap) (p n a b : NodePtr), (h n).parent_ = some a →
      (removeAllChildren_ h p n).parent_ = some b → a = b) := by
  constructor
  · intro h p c n a b ha hb
    by_cases hd : (h c).parent_ = none
    · by_cases hm : c ∈ (h p).children_
      · rw [addChild_listed h p c hd hm] at hb
        simp only [heapAfter] at hb
        rw [ha] at hb
        exact Option.some.inj hb
      · obtain ⟨h1, hok, hpar, _⟩ := addChild_append h p c hd hm
        rw [hok] at hb
        simp only [heapAfter] at hb
        have hn : n ≠ c := by
          intro he
          rw [he, hd] at ha
          cases ha
        rw [hpar, if_neg hn, ha] at hb
        exact Option.some.inj hb
    · rw [addChild_attached h p c hd] at hb
      simp only [heapAfter] at hb
      rw [ha] at hb
      exact Option.some.inj hb
  · intro h p n a b ha hb
    rw [removeAllChildren_parent] at hb
    split_ifs at hb
    rw [ha] at hb
    exact Option.some.inj hb

/-- Witness for C11: node 1 is the child of node 0 and stays so when node 2 is
added to node 0, and when `removeAllChildren_(2)` runs. -/
theorem no_direct_reparenting_witness :
    ((Heap.ofNodes [⟨none, [1]⟩, ⟨some 0, []⟩] 1).parent_ = some 0 ∧
      (heapAfter (addChild_ (Heap.ofNodes [⟨none, [1]⟩, ⟨some 0, []⟩]) 0 2) 1).parent_
        = some 0 ∧ (0 : NodePtr) = 0) ∧
    ((removeAllChildren_ (Heap.ofNodes [⟨none, [1]⟩, ⟨some 0, []⟩]) 2 1).parent_ = some 0 ∧
      (0 : NodePtr) = 0) :=
  ⟨⟨rfl, rfl,
      no_direct_reparenting.1 (Heap.ofNodes [⟨none, [1]⟩, ⟨some 0, []⟩]) 0 2 1 0 0 rfl rfl⟩,
    rfl,
    no_direct_reparenting.2 (Heap.ofNodes [⟨none, [1]⟩, ⟨some 0, []⟩]) 2 1 0 0 rfl rfl⟩

/-- C12: on a node `p` with no children `removeAllChildren_(p)` (which cannot
fail) returns the heap it was given; so for every heap and every `p`, running
`removeAllChildren_(p)` twice gives the same heap as running it once. -/
theorem removeAllChildren_noop :
    (∀ (h : Heap) (p : NodePtr), (h p).children_ = [] → removeAllChildren_ h p = h) ∧
    (∀ (h : Heap) (p : NodePtr),
      removeAllChildren_ (removeAllChildren_ h p) p = removeAllChildren_ h p) := by
  refine ⟨removeAllChildren_childless, ?_⟩
  intro h p
  apply removeAllChildren_childless
  simp [removeAllChildren_children]

/-- Witness for C12: a fresh node 0 has no children. -/
theorem removeAllChildren_noop_witness :
    (Heap.fresh 0).children_ = [] ∧ removeAllChildren_ Heap.fresh 0 = Heap.fresh :=
  ⟨rfl, removeAllChildren_noop.1 Heap.fresh 0 rfl⟩

/-- C13: a newly constructed node has no parent and no children, and
constructing it at address `p` leaves the node at every other address as it
was, parent and children included. -/
theorem construct_detached (h : Heap) (p : NodePtr) :
    Node.new.parent_ = none ∧ Node.new.children_ = [] ∧
    (h.construct p p).parent_ = none ∧ (h.construct p p).children_ = [] ∧
    (∀ n, n ≠ p → h.construct p n = h n ∧
      (h.construct p n).parent_ = (h n).parent_ ∧
      (h.construct p n).children_ = (h n).children_) := by
  refine ⟨rfl, rfl, ?_, ?_, ?_⟩
  · simp [Heap.construct, Heap.set, Node.new]
  · simp [Heap.construct, Heap.set, Node.new]
  · intro n hn
    have : h.construct p n = h n := by simp [Heap.construct, Heap.set, hn]
    exact ⟨this, by rw [this], by rw [this]⟩

/-- Witness for C13: a node is constructed at address 2 while node 1 is the
child of node 0. -/
theorem construct_detached_witness :
    ((Heap.ofNodes [⟨none, [1]⟩, ⟨some 0, []⟩]).construct 2 1).parent_ = some 0 ∧
    ((Heap.ofNodes [⟨none, [1]⟩, ⟨some 0, []⟩]).construct 2 0).children_ = [1] :=
  ⟨((construct_detached (Heap.ofNodes [⟨none, [1]⟩, ⟨some 0, []⟩]) 2).2.2.2.2 1
      (by decide)).2.1,
    ((construct_detached (Heap.ofNodes [⟨none, [1]⟩, ⟨some 0, []⟩]) 2).2.2.2.2 0
      (by decide)).2.2⟩

/-- C14: under the link invariant a detached `c` is not listed under `p`, the
membership test of `addChild_(p, c)` is false, and the call is the simplified
operation `appendChild` (append `c`, set its parent).  The call returns with
the heap untouched (the no-op path) exactly when `c` is listed under `p` while
`c` has no parent, and no heap in that situation satisfies the invariant. -/
theorem contains_check_redundant :
    (∀ (h : Heap) (p c : NodePtr), Linked h → (h c).parent_ = none →
      c ∉ (h p).children_ ∧ core.contains (h p).children_ c = false ∧
      addChild_ h p c = .ok (appendChild h p c)) ∧
    (∀ (h : Heap) (p c : NodePtr),
      addChild_ h p c = .ok h ↔ (c ∈ (h p).children_ ∧ (h c).parent_ = none)) ∧
    (∀ (h : Heap) (p c : NodePtr), c ∈ (h p).children_ → (h c).parent_ = none →
      ¬ Linked h) := by
  refine ⟨?_, ?_, ?_⟩
  · intro h p c hl hd
    have hm : c ∉ (h p).children_ := ((linked_iff h).1 hl).1.not_listed hd p
    refine ⟨hm, ?_, addChild_eq_appendChild h p c hd hm⟩
    cases hcon : core.contains (h p).children_ c
    · rfl
    · exact absurd ((contains_iff _ _).1 hcon) hm
  · intro h p c
    constructor
    · intro hok
      obtain ⟨hd, hcase⟩ := addChild_ok_cases hok
      rcases hcase with ⟨hm, _⟩ | ⟨_, hpar, _⟩
      · exact ⟨hm, hd⟩
      · have := hpar c
        rw [if_pos rfl, hd] at this
        cases this
    · rintro ⟨hm, hd⟩
      exact addChild_listed h p c hd hm
  · intro h p c hm hd hl
    exact ((linked_iff h).1 hl).1.not_listed hd p hm

/-- Witness for C14: fresh nodes 0 and 1; and the heap in which node 1 is listed
under node 0 without pointing to it, where the call changes nothing. -/
theorem contains_check_redundant_witness :
    (1 ∉ (Heap.fresh 0).children_ ∧ core.contains (Heap.fresh 0).children_ 1 = false ∧
      addChild_ Heap.fresh 0 1 = .ok (appendChild Heap.fresh 0 1)) ∧
    addChild_ (Heap.ofNodes [⟨none, [1]⟩, ⟨none, []⟩]) 0 1
      = .ok (Heap.ofNodes [⟨none, [1]⟩, ⟨none, []⟩]) ∧
    ¬ Linked (Heap.ofNodes [⟨none, [1]⟩, ⟨none, []⟩]) :=
  ⟨contains_check_redundant.1 Heap.fresh 0 1 fresh_linked rfl,
    (contains_check_redundant.2.1 (Heap.ofNodes [⟨none, [1]⟩, ⟨none, []⟩]) 0 1).2
      ⟨by decide, rfl⟩,
    contains_check_redundant.2.2 (Heap.ofNodes [⟨none, [1]⟩, ⟨none, []⟩]) 0 1
      (by decide) rfl⟩

/-- C15: in a consistent heap, for a childless `p` and a detached `c` other than
`p`, `addChild_(p, c)` succeeds and `removeAllChildren_(p)` run on its result
gives back the original heap, every parent and every children sequence. -/
theorem add_then_remove_roundtrip (h : Heap) (p c : NodePtr) (hc : Consistent h)
    (he : (h p).children_ = []) (hd : (h c).parent_ = none) (hne : c ≠ p) :
    ∃ h1, addChild_ h p c = .ok h1 ∧ removeAllChildren_ h1 p = h ∧
      (∀ n, (removeAllChildren_ h1 p n).parent_ = (h n).parent_ ∧
        (removeAllChildren_ h1 p n).children_ = (h n).children_) := by
  have _ := hne
  obtain ⟨h1, hok, hpar, hch⟩ := addChild_append h p c hd (hc.not_listed hd p)
  have hfields : ∀ n, (removeAllChildren_ h1 p n).parent_ = (h n).parent_ ∧
      (removeAllChildren_ h1 p n).children_ = (h n).children_ := by
    intro n
    constructor
    · rw [removeAllChildren_parent, hch, if_pos rfl, he, hpar]
      by_cases hn : n = c
      · subst hn; simp [hd]
      · simp [hn]
    · rw [removeAllChildren_children, hch]
      by_cases hn : n = p
      · subst hn; simp [he]
      · simp [hn]
  refine ⟨h1, hok, ?_, hfields⟩
  funext n
  exact Node.eq_of_fields (hfields n).1 (hfields n).2

/-- Witness for C15: fresh nodes 0 and 1. -/
theorem add_then_remove_roundtrip_witness :
    ∃ h1, addChild_ Heap.fresh 0 1 = .ok h1 ∧ removeAllChildren_ h1 0 = Heap.fresh ∧
      (∀ n, (removeAllChildren_ h1 0 n).parent_ = (Heap.fresh n).parent_ ∧
        (removeAllChildren_ h1 0 n).children_ = (Heap.fresh n).children_) :=
  add_then_remove_roundtrip Heap.fresh 0 1 fresh_consistent rfl rfl (by decide)

end vgc.dom
